import Mathlib

/-!
Verification of the sketch layer of the papertrail event-aggregation
engine.  Each Python class is embedded shallowly: Python lists become
`List`, Python ints become `ℕ`/`ℤ`, Python floats become `ℝ`, and the
external `mmh3` hash is a function parameter.
-/

namespace Papertrail

/-! ### Hash and bit primitives -/

/-- Halving recursion for `bitLength`, with explicit fuel so that the
recursion is structural; `bitLengthAux fuel n` is the bit count of `n`
whenever `n ≤ fuel`. -/
def bitLengthAux : ℕ → ℕ → ℕ
  | _, 0 => 0
  | 0, _ + 1 => 1
  | fuel + 1, n + 1 => bitLengthAux fuel ((n + 1) / 2) + 1

/-- Python's `int.bit_length`: number of bits needed to write `n` in
binary; `0` for `0`.  (`mmh3.hash(..., signed=False)` always returns a
value below `2 ^ 32`, so callers only apply this to such values.) -/
def bitLength (n : ℕ) : ℕ := bitLengthAux n n

/-- Sanity check: `bitLength` agrees with `⌊log₂ n⌋ + 1` on positive
numbers, i.e. it is Python's `bit_length`. -/
theorem bitLength_eq (n : ℕ) : bitLength n = if n = 0 then 0 else Nat.log2 n + 1 := by
  suffices h : ∀ fuel n : ℕ, n ≤ fuel →
      bitLengthAux fuel n = if n = 0 then 0 else Nat.log2 n + 1 by
    exact h n n le_rfl
  intro fuel
  induction fuel with
  | zero =>
    intro n hn
    interval_cases n
    rfl
  | succ fuel ih =>
    intro n hn
    match n with
    | 0 => rfl
    | m + 1 =>
      have hhalf : (m + 1) / 2 ≤ fuel := by omega
      have hrec : Nat.log2 (m + 1) = if 2 ≤ m + 1 then Nat.log2 ((m + 1) / 2) + 1 else 0 := by
        conv_lhs => rw [Nat.log2]
      rw [bitLengthAux, ih _ hhalf, hrec]
      rcases Nat.lt_or_ge (m + 1) 2 with h2 | h2
      · have hm : m = 0 := by omega
        subst hm
        norm_num
      · have hpos : (m + 1) / 2 ≠ 0 := by omega
        simp [hpos, h2]

/-! ### HyperLogLog (`src/app/core/sketches/hyperloglog.py`) -/

/-- State of `HyperLogLog`: the `m = 2 ^ precision` byte registers.
(`m` and `alpha` are derived fields, recomputed where needed.) -/
structure HyperLogLog where
  precision : ℕ
  registers : List ℕ
deriving DecidableEq

/-- `HyperLogLog.__init__`: all `2 ^ precision` registers start at 0.
The Python constructor raises unless `4 ≤ precision ≤ 16`; theorems
carry that bound as a hypothesis. -/
def HyperLogLog.init (precision : ℕ) : HyperLogLog :=
  ⟨precision, List.replicate (2 ^ precision) 0⟩

/-- `HyperLogLog._leading_zeros`: `32 - p` when `w = 0`, otherwise
`(32 - p) - w.bit_length()`. -/
def HyperLogLog.leadingZeros (precision w : ℕ) : ℕ :=
  if w = 0 then 32 - precision else (32 - precision) - bitLength w

/-- The bucket index used by `HyperLogLog.add`:
`hash_value & ((1 << precision) - 1)`. -/
def HyperLogLog.bucketOf (hash : α → ℕ) (precision : ℕ) (x : α) : ℕ :=
  hash x &&& ((1 <<< precision) - 1)

/-- The value `leading_zeros + 1` that `HyperLogLog.add` max-updates
into the register (`w = hash_value >> precision`). -/
def HyperLogLog.rhoOf (hash : α → ℕ) (precision : ℕ) (x : α) : ℕ :=
  HyperLogLog.leadingZeros precision (hash x >>> precision) + 1

/-- `HyperLogLog.add`: hash, split into bucket bits and remaining bits,
max-update the bucket's register. -/
def HyperLogLog.add (hash : α → ℕ) (h : HyperLogLog) (item : α) : HyperLogLog :=
  let bucket := HyperLogLog.bucketOf hash h.precision item
  let rho := HyperLogLog.rhoOf hash h.precision item
  { h with registers := h.registers.set bucket (max (h.registers.getD bucket 0) rho) }

/-- `HyperLogLog.merge`: raises on differing precision (modelled as
`none`), otherwise a fresh sketch with elementwise-max registers. -/
def HyperLogLog.merge (a b : HyperLogLog) : Option HyperLogLog :=
  if a.precision = b.precision then
    some ⟨a.precision, List.zipWith max a.registers b.registers⟩
  else none

/-- The sketch obtained by adding every element of `items` to a fresh
`HyperLogLog` of the given precision. -/
def HyperLogLog.ofList (hash : α → ℕ) (precision : ℕ) (items : List α) : HyperLogLog :=
  items.foldl (HyperLogLog.add hash) (HyperLogLog.init precision)

/-- `HyperLogLog.to_bytes`: `bytes(self.registers)` — just the register
bytes, with no precision prefix. -/
def HyperLogLog.toBytes (h : HyperLogLog) : List ℕ := h.registers

/-- `HyperLogLog.from_bytes(data, precision)`: build a sketch with the
given precision and overwrite its registers with `data`. -/
def HyperLogLog.fromBytes (data : List ℕ) (precision : ℕ) : HyperLogLog :=
  ⟨precision, data⟩

/-- `HyperLogLog.from_bytes` with its default argument `precision=14`. -/
def HyperLogLog.fromBytesDefault (data : List ℕ) : HyperLogLog :=
  HyperLogLog.fromBytes data 14

/-! ### List helper lemmas (Python mutable-list indexing) -/

theorem getD_set_self (l : List α) (i : ℕ) (v d : α) (h : i < l.length) :
    (l.set i v).getD i d = v := by
  rw [List.getD_eq_getElem _ _ (by simpa using h), List.getElem_set]
  simp

theorem getD_set_ne (l : List α) {i j : ℕ} (v d : α) (h : i ≠ j) :
    (l.set i v).getD j d = l.getD j d := by
  rw [List.getD_eq_getElem?_getD, List.getD_eq_getElem?_getD, List.getElem?_set]
  simp [h]

/-! ### HyperLogLog register lemmas -/

theorem HyperLogLog.add_registers (hash : α → ℕ) (h : HyperLogLog) (x : α) :
    (h.add hash x).registers = h.registers.set (HyperLogLog.bucketOf hash h.precision x)
      (max (h.registers.getD (HyperLogLog.bucketOf hash h.precision x) 0)
        (HyperLogLog.rhoOf hash h.precision x)) := rfl

theorem HyperLogLog.add_precision (hash : α → ℕ) (h : HyperLogLog) (x : α) :
    (h.add hash x).precision = h.precision := rfl

theorem HyperLogLog.bucketOf_lt (hash : α → ℕ) (p : ℕ) (x : α) :
    HyperLogLog.bucketOf hash p x < 2 ^ p := by
  unfold HyperLogLog.bucketOf
  have h1 : hash x &&& (1 <<< p - 1) ≤ 1 <<< p - 1 := Nat.and_le_right
  have h2 : (1 : ℕ) <<< p = 2 ^ p := by rw [Nat.shiftLeft_eq, one_mul]
  have h3 : 0 < 2 ^ p := pow_pos (by norm_num) p
  omega

/-- Contribution of a single item to register `i` of a precision-`p`
sketch: its `ρ` value if it maps to bucket `i`, otherwise nothing. -/
def contribution (hash : α → ℕ) (p i : ℕ) (x : α) : ℕ :=
  if HyperLogLog.bucketOf hash p x = i then HyperLogLog.rhoOf hash p x else 0

theorem HyperLogLog.add_getD (hash : α → ℕ) {p : ℕ} (s : HyperLogLog) (x : α) (i : ℕ)
    (hs : s.precision = p) (hlen : s.registers.length = 2 ^ p) :
    (s.add hash x).registers.getD i 0 =
      max (s.registers.getD i 0) (contribution hash p i x) := by
  rw [HyperLogLog.add_registers, hs]
  by_cases hb : HyperLogLog.bucketOf hash p x = i
  · rw [← hb, getD_set_self _ _ _ _ (by rw [hlen]; exact HyperLogLog.bucketOf_lt hash p x)]
    simp [contribution, hb]
  · rw [getD_set_ne _ _ _ hb]
    simp [contribution, hb]

theorem HyperLogLog.foldl_add_precision (hash : α → ℕ) (L : List α) (s : HyperLogLog) :
    (L.foldl (HyperLogLog.add hash) s).precision = s.precision := by
  induction L generalizing s with
  | nil => rfl
  | cons x L ih => rw [List.foldl_cons, ih]; rfl

theorem HyperLogLog.foldl_add_length (hash : α → ℕ) (L : List α) (s : HyperLogLog) :
    (L.foldl (HyperLogLog.add hash) s).registers.length = s.registers.length := by
  induction L generalizing s with
  | nil => rfl
  | cons x L ih =>
    rw [List.foldl_cons, ih, HyperLogLog.add_registers, List.length_set]

/-- Register `i` after folding `add` over a list is the max of its
starting value and the largest contribution of any (distinct) element
of the list. -/
theorem HyperLogLog.foldl_add_getD [DecidableEq α] (hash : α → ℕ) (p : ℕ) (L : List α)
    (s : HyperLogLog) (hs : s.precision = p) (hlen : s.registers.length = 2 ^ p) (i : ℕ) :
    (L.foldl (HyperLogLog.add hash) s).registers.getD i 0 =
      max (s.registers.getD i 0) (L.toFinset.sup (contribution hash p i)) := by
  induction L generalizing s with
  | nil => simp
  | cons x L ih =>
    rw [List.foldl_cons,
      ih (s.add hash x) (by rw [HyperLogLog.add_precision, hs])
        (by rw [HyperLogLog.add_registers, List.length_set, hlen]),
      HyperLogLog.add_getD hash s x i hs hlen, List.toFinset_cons, Finset.sup_insert,
      sup_eq_max]
    omega

theorem HyperLogLog.ofList_getD [DecidableEq α] (hash : α → ℕ) (p : ℕ) (L : List α) (i : ℕ) :
    (HyperLogLog.ofList hash p L).registers.getD i 0 =
      L.toFinset.sup (contribution hash p i) := by
  rw [HyperLogLog.ofList, HyperLogLog.foldl_add_getD hash p L _ rfl (by simp [HyperLogLog.init])]
  simp [HyperLogLog.init, List.getD_eq_getElem?_getD]

/-- C1: building one HyperLogLog from `A ∪ B` (any list with exactly the
members of `A` and `B`) gives, register for register, the elementwise-max
merge of the sketches built from `A` and from `B` at the same precision
and hash. -/
theorem hll_union_merge_equiv [DecidableEq α] (hash : α → ℕ) (p : ℕ) (A B U : List α)
    (hp4 : 4 ≤ p) (hp16 : p ≤ 16) (hhash : ∀ x, hash x < 2 ^ 32)
    (hU : ∀ x, x ∈ U ↔ x ∈ A ∨ x ∈ B) :
    HyperLogLog.merge (HyperLogLog.ofList hash p A) (HyperLogLog.ofList hash p B) =
      some (HyperLogLog.ofList hash p U) := by
  have hpA : (HyperLogLog.ofList hash p A).precision = p :=
    HyperLogLog.foldl_add_precision hash A _
  have hpB : (HyperLogLog.ofList hash p B).precision = p :=
    HyperLogLog.foldl_add_precision hash B _
  have hlen : ∀ L : List α, (HyperLogLog.ofList hash p L).registers.length = 2 ^ p := by
    intro L
    rw [HyperLogLog.ofList, HyperLogLog.foldl_add_length]
    simp [HyperLogLog.init]
  have hUfin : U.toFinset = A.toFinset ∪ B.toFinset := by
    ext a
    simp [List.mem_toFinset, Finset.mem_union, hU a]
  rw [HyperLogLog.merge, if_pos (by rw [hpA, hpB])]
  congr 1
  have hu : (HyperLogLog.ofList hash p U).precision = p :=
    HyperLogLog.foldl_add_precision hash U _
  cases hA : HyperLogLog.ofList hash p A with
  | mk pa ra =>
  cases hB : HyperLogLog.ofList hash p B with
  | mk pb rb =>
  cases hU2 : HyperLogLog.ofList hash p U with
  | mk pu ru =>
  have hpa : pa = p := by rw [hA] at hpA; exact hpA
  have hpu : pu = p := by rw [hU2] at hu; exact hu
  simp only [HyperLogLog.mk.injEq]
  constructor
  · rw [hpa, hpu]
  · apply List.ext_getElem
    · rw [List.length_zipWith]
      have l1 : ra.length = 2 ^ p := by have := hlen A; rw [hA] at this; exact this
      have l2 : rb.length = 2 ^ p := by have := hlen B; rw [hB] at this; exact this
      have l3 : ru.length = 2 ^ p := by have := hlen U; rw [hU2] at this; exact this
      rw [l1, l2, l3, min_self]
    · intro n h1 h2
      rw [List.getElem_zipWith]
      have hn1 : n < ra.length := by rw [List.length_zipWith] at h1; omega
      have hn2 : n < rb.length := by rw [List.length_zipWith] at h1; omega
      have e1 : ra[n] = A.toFinset.sup (contribution hash p n) := by
        have := HyperLogLog.ofList_getD hash p A n
        rw [hA] at this
        rw [← List.getD_eq_getElem ra 0, this]
      have e2 : rb[n] = B.toFinset.sup (contribution hash p n) := by
        have := HyperLogLog.ofList_getD hash p B n
        rw [hB] at this
        rw [← List.getD_eq_getElem rb 0, this]
      have e3 : ru[n] = U.toFinset.sup (contribution hash p n) := by
        have := HyperLogLog.ofList_getD hash p U n
        rw [hU2] at this
        rw [← List.getD_eq_getElem ru 0, this]
      rw [e1, e2, e3, hUfin, Finset.sup_union, sup_eq_max]

/-- C1 witness: a concrete instantiation at precision 4 with
`A = [0,1]`, `B = [1,2]`, `U = [0,1,2]` over `Fin 4`. -/
theorem hll_union_merge_equiv_witness :
    HyperLogLog.merge (HyperLogLog.ofList (fun x : Fin 4 => x.val) 4 [0, 1])
        (HyperLogLog.ofList (fun x : Fin 4 => x.val) 4 [1, 2]) =
      some (HyperLogLog.ofList (fun x : Fin 4 => x.val) 4 [0, 1, 2]) :=
  hll_union_merge_equiv (fun x : Fin 4 => x.val) 4 [0, 1] [1, 2] [0, 1, 2]
    (by decide) (by decide) (by decide) (by decide)

/-- C4 counterexample: at precision 4, hash value 5 has `w = 5 >> 4 = 0`,
and the value stored in register 5 of a fresh sketch is `33 - 4 = 29`,
not `32 - 4 = 28` as the claim states. -/
theorem hll_rho_zero_counterexample :
    (5 : ℕ) >>> 4 = 0 ∧
    ((HyperLogLog.init 4).add (fun _ : Unit => 5) ()).registers.getD 5 0 = 33 - 4 ∧
    ((HyperLogLog.init 4).add (fun _ : Unit => 5) ()).registers.getD 5 0 ≠ 32 - 4 := by
  decide

/-- C4 amended: when the remaining hash bits `w = H >> p` are zero, the
value compared into the register by the max-update is
`ρ = (32 - p) + 1 = 33 - p` (the code adds 1 to `_leading_zeros`). -/
theorem hll_rho_zero_register (hash : α → ℕ) (h : HyperLogLog) (x : α) (p : ℕ)
    (hp : h.precision = p) (hp4 : 4 ≤ p) (hp16 : p ≤ 16) (hw : hash x >>> p = 0) :
    HyperLogLog.add hash h x =
      { h with registers := (h.registers.set (HyperLogLog.bucketOf hash p x)
          (max (h.registers.getD (HyperLogLog.bucketOf hash p x) 0) (33 - p))) } := by
  subst hp
  have hrho : HyperLogLog.rhoOf hash h.precision x = 33 - h.precision := by
    unfold HyperLogLog.rhoOf HyperLogLog.leadingZeros
    rw [hw, if_pos rfl]
    omega
  rw [HyperLogLog.add, hrho]

/-- C4 witness: the amended statement instantiated at precision 4 and
hash value 5. -/
theorem hll_rho_zero_register_witness :
    HyperLogLog.add (fun _ : Unit => 5) (HyperLogLog.init 4) () =
      { HyperLogLog.init 4 with
        registers := ((HyperLogLog.init 4).registers.set
          (HyperLogLog.bucketOf (fun _ : Unit => 5) 4 ())
          (max ((HyperLogLog.init 4).registers.getD
            (HyperLogLog.bucketOf (fun _ : Unit => 5) 4 ()) 0) (33 - 4))) } :=
  hll_rho_zero_register (fun _ : Unit => 5) (HyperLogLog.init 4) () 4 rfl
    (by decide) (by decide) (by decide)

/-- C7 counterexample: the encoded blob of a precision-4 sketch holds
exactly the `2 ^ 4` register bytes (no leading precision byte), and
decoding it with `from_bytes`' default `precision=14` does not give back
the original sketch. -/
theorem hll_bytes_roundtrip_counterexample :
    HyperLogLog.fromBytesDefault (HyperLogLog.toBytes (HyperLogLog.init 4)) ≠
        HyperLogLog.init 4 ∧
    (HyperLogLog.toBytes (HyperLogLog.init 4)).length = 2 ^ 4 ∧
    (HyperLogLog.toBytes (HyperLogLog.init 4)).length ≠ 2 ^ 4 + 1 := by
  decide

/-- C7 amended: the HLL blob is exactly the `2 ^ p` register bytes with
no precision prefix, and `from_bytes` reconstructs the sketch only when
the caller re-supplies the same precision. -/
theorem hll_bytes_roundtrip_with_precision (h : HyperLogLog) (p : ℕ) (hp : h.precision = p) :
    HyperLogLog.fromBytes (HyperLogLog.toBytes h) p = h ∧
    (h.registers.length = 2 ^ p → (HyperLogLog.toBytes h).length = 2 ^ p) := by
  subst hp
  exact ⟨rfl, fun hl => hl⟩

/-- C7 witness: round-trip of a fresh precision-5 sketch with the
precision passed back in. -/
theorem hll_bytes_roundtrip_with_precision_witness :
    HyperLogLog.fromBytes (HyperLogLog.toBytes (HyperLogLog.init 5)) 5 = HyperLogLog.init 5 ∧
    (HyperLogLog.toBytes (HyperLogLog.init 5)).length = 2 ^ 5 :=
  ⟨(hll_bytes_roundtrip_with_precision (HyperLogLog.init 5) 5 rfl).1,
   (hll_bytes_roundtrip_with_precision (HyperLogLog.init 5) 5 rfl).2 (by decide)⟩

/-! ### Bloom filter (`src/app/core/sketches/bloom_filter.py`) -/

/-- State of `BloomFilter`.  `bit_array` is a `bytearray` of
`ceil(bit_size / 8)` bytes; `capacity`/`error_rate` are kept only for
re-serialization. -/
structure BloomFilter where
  capacity : ℕ
  errorRate : ℝ
  bitSize : ℕ
  hashCount : ℕ
  bitArray : List ℕ

/-- `BloomFilter._get_positions`: one seeded hash per seed in
`range(hash_count)`, reduced mod `bit_size`. -/
def BloomFilter.positionsOf (hash : ℕ → α → ℕ) (bf : BloomFilter) (item : α) : List ℕ :=
  (List.range bf.hashCount).map fun seed => hash seed item % bf.bitSize

/-- One iteration of the loop in `BloomFilter.add`:
`bit_array[position // 8] |= 1 << (position % 8)`. -/
def setBitAt (arr : List ℕ) (position : ℕ) : List ℕ :=
  arr.set (position / 8) (arr.getD (position / 8) 0 ||| (1 <<< (position % 8)))

/-- The bit test in `BloomFilter.contains`:
`bit_array[position // 8] & (1 << (position % 8))` is nonzero. -/
def testBitAt (arr : List ℕ) (position : ℕ) : Bool :=
  arr.getD (position / 8) 0 &&& (1 <<< (position % 8)) != 0

/-- `BloomFilter.add`: set the bit for every hash position. -/
def BloomFilter.add (hash : ℕ → α → ℕ) (bf : BloomFilter) (item : α) : BloomFilter :=
  { bf with bitArray := (bf.positionsOf hash item).foldl setBitAt bf.bitArray }

/-- `BloomFilter.contains`: true iff every hash position's bit is set. -/
def BloomFilter.contains (hash : ℕ → α → ℕ) (bf : BloomFilter) (item : α) : Bool :=
  (bf.positionsOf hash item).all fun position => testBitAt bf.bitArray position

/-- Adding a list of items one after the other. -/
def BloomFilter.addList (hash : ℕ → α → ℕ) (bf : BloomFilter) (items : List α) : BloomFilter :=
  items.foldl (BloomFilter.add hash) bf

theorem testBitAt_iff (arr : List ℕ) (position : ℕ) :
    testBitAt arr position = true ↔
      (arr.getD (position / 8) 0).testBit (position % 8) = true := by
  unfold testBitAt
  rw [Nat.shiftLeft_eq, one_mul, Nat.and_two_pow]
  have hpow : (2:ℕ) ^ (position % 8) ≠ 0 := (pow_pos (by norm_num : (0:ℕ) < 2) _).ne'
  cases h : (arr.getD (position / 8) 0).testBit (position % 8) <;> simp [h, hpow]

theorem setBitAt_length (arr : List ℕ) (position : ℕ) :
    (setBitAt arr position).length = arr.length := by
  unfold setBitAt
  rw [List.length_set]

theorem testBitAt_setBitAt_self (arr : List ℕ) (position : ℕ)
    (h : position / 8 < arr.length) :
    testBitAt (setBitAt arr position) position = true := by
  rw [testBitAt_iff]
  unfold setBitAt
  rw [getD_set_self _ _ _ _ h, Nat.shiftLeft_eq, one_mul, Nat.testBit_or,
    Nat.testBit_two_pow_self]
  simp

theorem testBitAt_setBitAt_mono (arr : List ℕ) (p q : ℕ)
    (h : testBitAt arr q = true) :
    testBitAt (setBitAt arr p) q = true := by
  rw [testBitAt_iff] at h ⊢
  unfold setBitAt
  by_cases hb : p / 8 = q / 8
  · by_cases hl : p / 8 < arr.length
    · rw [← hb, getD_set_self _ _ _ _ hl, Nat.testBit_or, hb, h]
      simp
    · have hq : arr.getD (q / 8) 0 = 0 := by
        rw [List.getD_eq_getElem?_getD, List.getElem?_eq_none (by omega : arr.length ≤ q / 8)]
        rfl
      rw [hq] at h
      simp [Nat.zero_testBit] at h
  · rw [getD_set_ne _ _ _ hb]
    exact h

theorem foldl_setBitAt_length (ps : List ℕ) (arr : List ℕ) :
    (ps.foldl setBitAt arr).length = arr.length := by
  induction ps generalizing arr with
  | nil => rfl
  | cons p ps ih => rw [List.foldl_cons, ih, setBitAt_length]

theorem testBitAt_foldl_setBitAt_mono (ps : List ℕ) (arr : List ℕ) (q : ℕ)
    (h : testBitAt arr q = true) :
    testBitAt (ps.foldl setBitAt arr) q = true := by
  induction ps generalizing arr with
  | nil => exact h
  | cons p ps ih => exact ih _ (testBitAt_setBitAt_mono arr p q h)

theorem testBitAt_foldl_setBitAt_self (ps : List ℕ) (arr : List ℕ)
    (hps : ∀ p ∈ ps, p / 8 < arr.length) (q : ℕ) (hq : q ∈ ps) :
    testBitAt (ps.foldl setBitAt arr) q = true := by
  induction ps generalizing arr with
  | nil => cases hq
  | cons p ps ih =>
    rw [List.foldl_cons]
    rcases List.mem_cons.mp hq with rfl | hq2
    · exact testBitAt_foldl_setBitAt_mono ps _ q
        (testBitAt_setBitAt_self arr q (hps q (List.mem_cons_self q ps)))
    · exact ih _ (fun r hr => by rw [setBitAt_length]; exact hps r (List.mem_cons_of_mem p hr)) hq2

theorem BloomFilter.add_bitSize (hash : ℕ → α → ℕ) (bf : BloomFilter) (y : α) :
    (bf.add hash y).bitSize = bf.bitSize := rfl

theorem BloomFilter.add_positionsOf (hash : ℕ → α → ℕ) (bf : BloomFilter) (y x : α) :
    (bf.add hash y).positionsOf hash x = bf.positionsOf hash x := rfl

theorem BloomFilter.add_length (hash : ℕ → α → ℕ) (bf : BloomFilter) (y : α) :
    (bf.add hash y).bitArray.length = bf.bitArray.length := by
  show ((bf.positionsOf hash y).foldl setBitAt bf.bitArray).length = bf.bitArray.length
  exact foldl_setBitAt_length _ _

theorem BloomFilter.positionsOf_div_lt (hash : ℕ → α → ℕ) (bf : BloomFilter) (item : α)
    (h0 : 0 < bf.bitSize) (hlen : bf.bitArray.length = (bf.bitSize + 7) / 8) :
    ∀ p ∈ bf.positionsOf hash item, p / 8 < bf.bitArray.length := by
  intro p hp
  rw [BloomFilter.positionsOf, List.mem_map] at hp
  obtain ⟨seed, _, rfl⟩ := hp
  have hm : hash seed item % bf.bitSize < bf.bitSize := Nat.mod_lt _ h0
  omega

theorem BloomFilter.contains_of_all_bits (hash : ℕ → α → ℕ) (bf : BloomFilter) (item : α)
    (h : ∀ p ∈ bf.positionsOf hash item, testBitAt bf.bitArray p = true) :
    bf.contains hash item = true := by
  rw [BloomFilter.contains, List.all_eq_true]
  exact h

/-- Bits already set for `x` survive any further sequence of adds. -/
theorem BloomFilter.contains_addList_of_bits (hash : ℕ → α → ℕ) (bf : BloomFilter)
    (items : List α) (x : α)
    (h : ∀ p ∈ bf.positionsOf hash x, testBitAt bf.bitArray p = true) :
    (bf.addList hash items).contains hash x = true := by
  induction items generalizing bf with
  | nil => exact BloomFilter.contains_of_all_bits hash bf x h
  | cons y ys ih =>
    rw [BloomFilter.addList, List.foldl_cons]
    exact ih (bf.add hash y) fun p hp =>
      testBitAt_foldl_setBitAt_mono _ _ _ (h p hp)

/-- C2: a Bloom filter has no false negatives — after any sequence of
adds that includes `x` (in any position, with any other items before or
after), `contains(x)` is true.  `hlen` states the `bytearray` size
invariant set up by the constructor. -/
theorem bloom_no_false_negatives (hash : ℕ → α → ℕ) (bf : BloomFilter) (items : List α)
    (x : α) (hbs : 0 < bf.bitSize) (hlen : bf.bitArray.length = (bf.bitSize + 7) / 8)
    (hx : x ∈ items) :
    (bf.addList hash items).contains hash x = true := by
  induction items generalizing bf with
  | nil => cases hx
  | cons y ys ih =>
    rw [BloomFilter.addList, List.foldl_cons]
    rcases List.mem_cons.mp hx with rfl | hx2
    · refine BloomFilter.contains_addList_of_bits hash (bf.add hash x) ys x ?_
      intro p hp
      rw [BloomFilter.add_positionsOf] at hp
      exact testBitAt_foldl_setBitAt_self _ _
        (BloomFilter.positionsOf_div_lt hash bf x hbs hlen) p hp
    · exact ih (bf.add hash y)
        (by rw [BloomFilter.add_bitSize]; exact hbs)
        (by rw [BloomFilter.add_length, BloomFilter.add_bitSize]; exact hlen)
        hx2

/-- C2 witness: a concrete 16-bit filter with two seeds; adding `[5, 3]`
and querying `3`. -/
theorem bloom_no_false_negatives_witness :
    (BloomFilter.addList (fun seed item => seed + item)
        ⟨10, 0, 16, 2, [0, 0]⟩ [5, 3]).contains (fun seed item => seed + item) 3 = true :=
  bloom_no_false_negatives (fun seed item => seed + item) ⟨10, 0, 16, 2, [0, 0]⟩
    [5, 3] 3 (by decide) (by decide) (by decide)

/-! ### Bloom filter constructor parameter derivation -/

/-- Python's `int()` applied to a float: truncation toward zero. -/
noncomputable def intTrunc (x : ℝ) : ℤ := if 0 ≤ x then ⌊x⌋ else -⌊-x⌋

/-- `BloomFilter._optimal_bit_size`: `int(-n * log(p) / log(2) ** 2)`. -/
noncomputable def optimalBitSize (n : ℕ) (p : ℝ) : ℤ :=
  intTrunc (-(n : ℝ) * Real.log p / Real.log 2 ^ 2)

/-- `BloomFilter._optimal_hash_count`: `max(1, int((m / n) * log(2)))`. -/
noncomputable def optimalHashCount (m : ℤ) (n : ℕ) : ℤ :=
  max 1 (intTrunc ((m : ℝ) / (n : ℝ) * Real.log 2))

/-- `BloomFilter.__init__(capacity, error_rate)`: derive `(m, k)` and
allocate `ceil(m / 8)` zero bytes. -/
noncomputable def mkBloomFilter (capacity : ℕ) (errorRate : ℝ) : BloomFilter :=
  let bitSize := (optimalBitSize capacity errorRate).toNat
  let hashCount := (optimalHashCount (optimalBitSize capacity errorRate) capacity).toNat
  { capacity := capacity, errorRate := errorRate, bitSize := bitSize,
    hashCount := hashCount, bitArray := List.replicate ((bitSize + 7) / 8) 0 }

/-- The spec's formula for the bit-array size: `m = ⌈-n·ln(ε) / (ln 2)²⌉`
(written from the claim, to compare against the code). -/
noncomputable def specBloomBitSize (n : ℕ) (ε : ℝ) : ℤ :=
  ⌈-(n : ℝ) * Real.log ε / Real.log 2 ^ 2⌉

/-- The spec's formula for the seed count: `k = max(1, round((m/n)·ln 2))`. -/
noncomputable def specBloomHashCount (m : ℤ) (n : ℕ) : ℤ :=
  max 1 (round ((m : ℝ) / (n : ℝ) * Real.log 2))

/-- C5 counterexample: at `n = 1`, `ε = 1/2` the argument is
`1/ln 2 ≈ 1.44`, so the code's `int()` gives `m = 1` while the spec's
ceiling gives `m = 2`. -/
theorem bloom_bit_size_not_ceil_counterexample :
    optimalBitSize 1 (1 / 2) = 1 ∧ specBloomBitSize 1 (1 / 2) = 2 := by
  have hpos : 0 < Real.log 2 := Real.log_pos (by norm_num)
  have hne : Real.log 2 ≠ 0 := ne_of_gt hpos
  have harg : -((1 : ℕ) : ℝ) * Real.log (1 / 2) / Real.log 2 ^ 2 = (Real.log 2)⁻¹ := by
    rw [one_div, Real.log_inv]
    push_cast
    field_simp
    ring
  have hlt1 : Real.log 2 < 1 := lt_trans Real.log_two_lt_d9 (by norm_num)
  have hgt : (1 : ℝ) / 2 < Real.log 2 := lt_trans (by norm_num) Real.log_two_gt_d9
  have hinv1 : (1 : ℝ) < (Real.log 2)⁻¹ := by
    have := inv_lt_inv_of_lt hpos hlt1
    simpa using this
  have hinv2 : (Real.log 2)⁻¹ < 2 := by
    have := inv_lt_inv_of_lt (by norm_num : (0:ℝ) < 1 / 2) hgt
    rw [one_div, inv_inv] at this
    exact this
  constructor
  · rw [optimalBitSize, harg, intTrunc,
      if_pos (le_of_lt (inv_pos.mpr hpos)), Int.floor_eq_iff]
    constructor
    · push_cast
      exact le_of_lt hinv1
    · push_cast
      linarith
  · rw [specBloomBitSize, harg, Int.ceil_eq_iff]
    constructor
    · push_cast
      linarith
    · push_cast
      exact le_of_lt hinv2

/-- C5 amended: the constructor truncates (`int()`, i.e. floor on these
nonnegative arguments) rather than taking the ceiling for `m`, and
truncates rather than rounds inside `k = max(1, ...)`. -/
theorem bloom_params_truncation (n : ℕ) (ε : ℝ) (hn : 1 ≤ n) (h0 : 0 < ε) (h1 : ε < 1) :
    optimalBitSize n ε = ⌊-(n : ℝ) * Real.log ε / Real.log 2 ^ 2⌋ ∧
    optimalHashCount (optimalBitSize n ε) n =
      max 1 ⌊((optimalBitSize n ε : ℝ)) / (n : ℝ) * Real.log 2⌋ ∧
    (mkBloomFilter n ε).bitSize = (optimalBitSize n ε).toNat ∧
    (mkBloomFilter n ε).hashCount = (optimalHashCount (optimalBitSize n ε) n).toNat := by
  have hlog : Real.log ε < 0 := Real.log_neg h0 h1
  have hnn : (0 : ℝ) ≤ (n : ℝ) := Nat.cast_nonneg n
  have hnum : 0 ≤ -(n : ℝ) * Real.log ε := by nlinarith
  have harg : 0 ≤ -(n : ℝ) * Real.log ε / Real.log 2 ^ 2 :=
    div_nonneg hnum (sq_nonneg _)
  have e1 : optimalBitSize n ε = ⌊-(n : ℝ) * Real.log ε / Real.log 2 ^ 2⌋ := by
    rw [optimalBitSize, intTrunc, if_pos harg]
  have hm : 0 ≤ optimalBitSize n ε := by
    rw [e1]
    exact Int.floor_nonneg.mpr harg
  have harg2 : 0 ≤ ((optimalBitSize n ε : ℝ)) / (n : ℝ) * Real.log 2 :=
    mul_nonneg (div_nonneg (by exact_mod_cast hm) hnn)
      (le_of_lt (Real.log_pos (by norm_num)))
  have e2 : optimalHashCount (optimalBitSize n ε) n =
      max 1 ⌊((optimalBitSize n ε : ℝ)) / (n : ℝ) * Real.log 2⌋ := by
    rw [optimalHashCount, intTrunc, if_pos harg2]
  exact ⟨e1, e2, rfl, rfl⟩

/-- C5 witness: the amended statement at `n = 1`, `ε = 1/2`. -/
theorem bloom_params_truncation_witness :
    optimalBitSize 1 (1 / 2) = ⌊-((1 : ℕ) : ℝ) * Real.log (1 / 2) / Real.log 2 ^ 2⌋ ∧
    optimalHashCount (optimalBitSize 1 (1 / 2)) 1 =
      max 1 ⌊((optimalBitSize 1 (1 / 2) : ℝ)) / ((1 : ℕ) : ℝ) * Real.log 2⌋ ∧
    (mkBloomFilter 1 (1 / 2)).bitSize = (optimalBitSize 1 (1 / 2)).toNat ∧
    (mkBloomFilter 1 (1 / 2)).hashCount =
      (optimalHashCount (optimalBitSize 1 (1 / 2)) 1).toNat :=
  bloom_params_truncation 1 (1 / 2) le_rfl (by norm_num) (by norm_num)

/-! ### Space-Saving Top-K (`src/app/core/sketches/count_min.py`, class `TopK`) -/

/-- State of `TopK`.  `items` models the Python dict `item -> count`,
which preserves insertion order; keys are distinct in every reachable
state. -/
structure TopK where
  k : ℕ
  items : List (String × ℤ)
  minCount : ℤ
deriving DecidableEq

/-- `TopK.__init__`. -/
def TopK.init (k : ℕ) : TopK := ⟨k, [], 0⟩

/-- `min(self.items, key=self.items.get)`: Python's `min` scans the dict
in insertion order and keeps the first entry whose count is a strict
improvement, so ties go to the earliest-inserted key. -/
def firstMinEntry : List (String × ℤ) → Option (String × ℤ)
  | [] => none
  | p :: rest => some (rest.foldl (fun best q => if q.2 < best.2 then q else best) p)

/-- `min(self.items.values())` (0 for the empty dict, which the code
never reaches on this path). -/
def minValue : List (String × ℤ) → ℤ
  | [] => 0
  | p :: rest => rest.foldl (fun b q => min b q.2) p.2

/-- In-place `self.items[item] += count` for a key already present. -/
def bumpCount (l : List (String × ℤ)) (item : String) (count : ℤ) : List (String × ℤ) :=
  l.map fun p => if p.1 = item then (p.1, p.2 + count) else p

/-- `TopK.add`: Space-Saving update.  An absent item either occupies a
free slot, or (when `count > min_count`) evicts the key that Python's
`min(self.items, key=self.items.get)` returns, or is dropped. -/
def TopK.add (t : TopK) (item : String) (count : ℤ) : TopK :=
  if (t.items.lookup item).isSome then
    { t with items := bumpCount t.items item count }
  else if t.items.length < t.k then
    { t with items := t.items ++ [(item, count)],
             minCount := if count < t.minCount ∨ t.minCount = 0 then count else t.minCount }
  else if t.minCount < count then
    match firstMinEntry t.items with
    | none => t
    | some minEntry =>
      let pruned := t.items.filter fun p => p.1 ≠ minEntry.1
      { t with items := pruned ++ [(item, count)],
               minCount := minValue (pruned ++ [(item, count)]) }
  else t

/-- C6 counterexample: with `k = 2`, inserting `b` then `a` (both with
count 1) and then `c` with count 2 evicts `b` — the first-inserted
minimum — even though `a` is the lexicographically smallest key holding
the minimum count. -/
theorem topk_eviction_not_lex_counterexample :
    (((TopK.init 2).add "b" 1).add "a" 1).add "c" 2 =
      ⟨2, [("a", 1), ("c", 2)], 1⟩ ∧ ("a" : String) < "b" := by
  constructor
  · rfl
  · rw [String.lt_iff_toList_lt]
    decide

/-- The entry kept by the `min` fold is in the scanned list, holds the
minimum count, and every entry strictly before it has a strictly larger
count (so ties go to the earliest-inserted key). -/
theorem foldl_min_spec (p : String × ℤ) (rest : List (String × ℤ)) :
    (∀ q ∈ p :: rest,
        (rest.foldl (fun best q => if q.2 < best.2 then q else best) p).2 ≤ q.2) ∧
      ∃ l₁ l₂,
        p :: rest = l₁ ++ (rest.foldl (fun best q => if q.2 < best.2 then q else best) p) :: l₂ ∧
        ∀ q ∈ l₁, (rest.foldl (fun best q => if q.2 < best.2 then q else best) p).2 < q.2 := by
  induction rest generalizing p with
  | nil =>
    constructor
    · intro q hq
      simp only [List.foldl_nil]
      rcases List.mem_cons.mp hq with rfl | hq2
      · exact le_rfl
      · cases hq2
    · exact ⟨[], [], rfl, by simp⟩
  | cons x rest ih =>
    rw [List.foldl_cons]
    obtain ⟨ihmin, l₁, l₂, ihdec, ihgt⟩ := ih (if x.2 < p.2 then x else p)
    set r := rest.foldl (fun best q => if q.2 < best.2 then q else best)
        (if x.2 < p.2 then x else p) with hr
    constructor
    · intro q hq
      rcases List.mem_cons.mp hq with rfl | hq2
      · by_cases hx : x.2 < q.2
        · have h1 : r.2 ≤ x.2 := ihmin x (by rw [if_pos hx]; exact List.mem_cons_self _ _)
          omega
        · exact ihmin q (by rw [if_neg hx]; exact List.mem_cons_self _ _)
      rcases List.mem_cons.mp hq2 with rfl | hq3
      · by_cases hx : q.2 < p.2
        · exact ihmin q (by rw [if_pos hx]; exact List.mem_cons_self _ _)
        · have h1 : r.2 ≤ p.2 := ihmin p (by rw [if_neg hx]; exact List.mem_cons_self _ _)
          omega
      · exact ihmin q (List.mem_cons_of_mem _ hq3)
    · by_cases hx : x.2 < p.2
      · rw [if_pos hx] at ihdec
        refine ⟨p :: l₁, l₂, ?_, ?_⟩
        · rw [List.cons_append, ← ihdec]
        · intro q hq
          rcases List.mem_cons.mp hq with rfl | hq2
          · have h1 : r.2 ≤ x.2 := ihmin x (by rw [if_pos hx]; exact List.mem_cons_self _ _)
            omega
          · exact ihgt q hq2
      · rw [if_neg hx] at ihdec
        cases l₁ with
        | nil =>
          simp only [List.nil_append] at ihdec
          injection ihdec with hpr hl₂
          exact ⟨[], x :: rest, by rw [List.nil_append, ← hpr], by simp⟩
        | cons a l₁ =>
          rw [List.cons_append] at ihdec
          injection ihdec with ha hrest
          refine ⟨p :: x :: l₁, l₂, ?_, ?_⟩
          · rw [List.cons_append, List.cons_append, hrest]
          · intro q hq
            have hra : r.2 < a.2 := ihgt a (List.mem_cons_self a l₁)
            rcases List.mem_cons.mp hq with rfl | hq2
            · rw [ha]
              exact hra
            rcases List.mem_cons.mp hq2 with rfl | hq3
            · rw [← ha] at hra
              omega
            · exact ihgt q (List.mem_cons_of_mem a hq3)

/-- C6 amended: on a full tracker, the evicted key is the entry returned
by Python's `min` over the dict — the *first-inserted* key among those
holding the minimum count — rather than the lexicographically smallest
such key, and the incoming item is appended with its count. -/
theorem topk_eviction_first_inserted_min (t : TopK) (item : String) (count : ℤ)
    (e : String × ℤ) (hnot : (t.items.lookup item).isSome = false)
    (hfull : ¬ t.items.length < t.k) (hgt : t.minCount < count)
    (hmin : firstMinEntry t.items = some e) :
    (t.add item count).items =
      (t.items.filter fun p => p.1 ≠ e.1) ++ [(item, count)] ∧
    e ∈ t.items ∧ (∀ q ∈ t.items, e.2 ≤ q.2) ∧
    ∃ l₁ l₂, t.items = l₁ ++ e :: l₂ ∧ ∀ q ∈ l₁, e.2 < q.2 := by
  refine ⟨?_, ?_⟩
  · rw [TopK.add, if_neg (by rw [hnot]; simp), if_neg hfull, if_pos hgt, hmin]
  · cases hitems : t.items with
    | nil => rw [hitems] at hmin; cases hmin
    | cons p rest =>
      rw [hitems] at hmin
      rw [firstMinEntry] at hmin
      injection hmin with hmin
      obtain ⟨hle, l₁, l₂, hdec, hlt⟩ := foldl_min_spec p rest
      rw [hmin] at hle hdec hlt
      refine ⟨?_, hle, l₁, l₂, hdec, hlt⟩
      rw [hdec]
      exact List.mem_append_right l₁ (List.mem_cons_self e l₂)

/-- C6 witness: the amended statement at the counterexample's state —
`e = ("b", 1)` is first-inserted among the two minimum-count keys. -/
theorem topk_eviction_first_inserted_min_witness :
    (TopK.add ⟨2, [("b", 1), ("a", 1)], 1⟩ "c" 2).items =
      ((([("b", 1), ("a", 1)] : List (String × ℤ)).filter
        fun p => p.1 ≠ (("b", 1) : String × ℤ).1) ++ [("c", 2)]) ∧
    (("b", 1) : String × ℤ) ∈ ([("b", 1), ("a", 1)] : List (String × ℤ)) ∧
    (∀ q ∈ ([("b", 1), ("a", 1)] : List (String × ℤ)), (("b", 1) : String × ℤ).2 ≤ q.2) ∧
    ∃ l₁ l₂, ([("b", 1), ("a", 1)] : List (String × ℤ)) =
        l₁ ++ (("b", 1) : String × ℤ) :: l₂ ∧
      ∀ q ∈ l₁, (("b", 1) : String × ℤ).2 < q.2 :=
  topk_eviction_first_inserted_min ⟨2, [("b", 1), ("a", 1)], 1⟩ "c" 2 ("b", 1)
    (by rfl) (by decide) (by decide) (by rfl)

/-! ### TopK merge, monoid sum and the time-range rollup
(`src/app/core/sketches/count_min.py` `TopK.merge`,
`src/app/core/monoid.py` `Monoid.sum`,
`src/app/core/monoids/topk_monoid.py`,
`src/app/core/storage.py` `aggregate_topk_windows` / `get_topk`) -/

/-- `TopK.merge`: a fresh tracker with `k = max(k_a, k_b)` into which
both operands' items are replayed with `add`. -/
def TopK.merge (a b : TopK) : TopK :=
  let m0 := TopK.init (max a.k b.k)
  let m1 := a.items.foldl (fun acc p => acc.add p.1 p.2) m0
  b.items.foldl (fun acc p => acc.add p.1 p.2) m1

/-- `TopKMonoid(k).sum`: `reduce(plus, items, zero())` with
`plus a b = a.merge(b)` and `zero() = TopK(k)`. -/
def topkMonoidSum (k : ℕ) (l : List TopK) : TopK :=
  if l = [] then TopK.init k else l.foldl TopK.merge (TopK.init k)

/-- Stable insertion keeping counts in descending order: the inserted
entry goes before the first entry with a count not above its own, which
is how Python's stable `sorted(..., reverse=True)` orders ties. -/
def insertByCountDesc (p : String × ℤ) : List (String × ℤ) → List (String × ℤ)
  | [] => [p]
  | q :: rest => if q.2 ≤ p.2 then p :: q :: rest else q :: insertByCountDesc p rest

/-- Python's `sorted(items, key=count, reverse=True)` (stable). -/
def sortByCountDesc (l : List (String × ℤ)) : List (String × ℤ) :=
  l.foldr insertByCountDesc []

/-- `TopK.top_k(k)`: items sorted by count descending, first `k`. -/
def TopK.topItems (t : TopK) (k : ℕ) : List (String × ℤ) :=
  (sortByCountDesc t.items).take k

/-- `RedisStorage.get_topk` for one bucket: load the sketch stored under
the bucket of `ts` (the `store` map models Redis) and return its top
`k`; an absent key yields `[]`. -/
def getTopkAt (store : ℕ → Option TopK) (ts k : ℕ) : List (String × ℤ) :=
  match store ts with
  | none => []
  | some t => t.topItems k

/-- The `while current <= end_time: current += duration` loop generating
the bucket timestamps (for `step > 0`). -/
def windowTimestamps (startTime endTime step : ℕ) : List ℕ :=
  if startTime ≤ endTime then
    (List.range ((endTime - startTime) / step + 1)).map fun i => startTime + i * step
  else []

/-- `RedisStorage.aggregate_topk_windows`: fetch the per-bucket TopK
sketches over the range, fold them with the TopK monoid into `merged` —
and then return `get_topk(..., start_time, ...)`, i.e. the contents of
the first bucket, leaving `merged` unused (verbatim from the source). -/
def aggregateTopkWindows (store : ℕ → Option TopK) (startTime endTime step k : ℕ) :
    List (String × ℤ) :=
  let topkList := (windowTimestamps startTime endTime step).filterMap store
  if topkList = [] then []
  else
    let merged := topkMonoidSum k topkList
    getTopkAt store startTime k

/-- Two hourly buckets: the one at the range start holds only `b`; the
later one holds the heavier item `a`. -/
def bugStore : ℕ → Option TopK := fun ts =>
  if ts = 0 then some ⟨100, [("b", 5)], 5⟩
  else if ts = 3600 then some ⟨100, [("a", 10)], 10⟩ else none

/-- C8: on the two-bucket store, the rollup returns the first bucket's
top-k `[("b", 5)]`, not the folded sketch's top-k `[("a", 10), ("b", 5)]`
that both the spec and the function's own docstring promise. -/
theorem aggregate_topk_returns_first_bucket :
    aggregateTopkWindows bugStore 0 3600 3600 2 = [("b", 5)] ∧
    (topkMonoidSum 2 ((windowTimestamps 0 3600 3600).filterMap bugStore)).topItems 2 =
      [("a", 10), ("b", 5)] ∧
    aggregateTopkWindows bugStore 0 3600 3600 2 ≠
      (topkMonoidSum 2 ((windowTimestamps 0 3600 3600).filterMap bugStore)).topItems 2 := by
  refine ⟨rfl, rfl, ?_⟩
  intro h
  rw [show aggregateTopkWindows bugStore 0 3600 3600 2 = [("b", 5)] from rfl] at h
  rw [show (topkMonoidSum 2 ((windowTimestamps 0 3600 3600).filterMap bugStore)).topItems 2 =
    [("a", 10), ("b", 5)] from rfl] at h
  exact absurd (congrArg List.length h) (by decide)

/-! ### Event processor (`src/app/core/processor.py`) -/

/-- `EventProcessor.process_event`: the four update phases run in
sequence inside a single `try`; an exception from any phase is logged
and re-raised, so later phases do not run.  Each phase is modelled as a
state transformer on the storage state `σ` that may raise `ε`. -/
def processEvent (updateHll updateBloom updateTopk publishEvent : σ → Except ε σ)
    (s : σ) : Except ε σ := do
  let s1 ← updateHll s
  let s2 ← updateBloom s1
  let s3 ← updateTopk s2
  publishEvent s3

/-- An update phase that raises. -/
def failingUpdate : List String → Except String (List String) :=
  fun _ => Except.error "hll failed"

/-- An update phase that succeeds and records that it ran. -/
def taggingUpdate (tag : String) : List String → Except String (List String) :=
  fun s => Except.ok (s ++ [tag])

/-- C3 counterexample: when the HLL phase raises, `process_event`
propagates the error; the Bloom/TopK/publish phases are never applied,
contrary to the claim that the remaining updates still run. -/
theorem process_event_aborts_counterexample :
    processEvent failingUpdate (taggingUpdate "bloom") (taggingUpdate "topk")
      (taggingUpdate "publish") [] = Except.error "hll failed" ∧
    processEvent failingUpdate (taggingUpdate "bloom") (taggingUpdate "topk")
      (taggingUpdate "publish") [] ≠ Except.ok ["bloom", "topk", "publish"] :=
  ⟨rfl, fun h => Except.noConfusion h⟩

/-- C3 amended: an error in any single sketch update aborts the
remaining updates of that event and propagates to the caller (per-event
containment happens one level up, in `process_batch`). -/
theorem process_event_error_propagates
    (updateHll updateBloom updateTopk publishEvent : σ → Except ε σ)
    (s : σ) (e : ε) (hf : updateHll s = Except.error e) :
    processEvent updateHll updateBloom updateTopk publishEvent s = Except.error e := by
  simp only [processEvent, hf]
  rfl

/-- C3 witness: the amended statement at the concrete failing HLL
phase. -/
theorem process_event_error_propagates_witness :
    processEvent failingUpdate (taggingUpdate "bloom") (taggingUpdate "topk")
      (taggingUpdate "publish") ["seed"] = Except.error "hll failed" :=
  process_event_error_propagates failingUpdate (taggingUpdate "bloom")
    (taggingUpdate "topk") (taggingUpdate "publish") ["seed"] "hll failed" rfl

/-! ### Moments (`src/app/core/monoids/moments_monoid.py`) -/

/-- The `Moments` named tuple `(m0, m1, m2, m3, m4)`:
count, mean, and unnormalized central sums. -/
structure Moments where
  m0 : ℤ
  m1 : ℝ
  m2 : ℝ
  m3 : ℝ
  m4 : ℝ

/-- `Moments.variance`: `0` if `m0 < 2`, else `m2 / m0`. -/
noncomputable def Moments.variance (m : Moments) : ℝ :=
  if m.m0 < 2 then 0 else m.m2 / (m.m0 : ℝ)

/-- `Moments.skewness`: `0` if `m0 < 3` or `m2 == 0`, else
`(m3 * m0) / (m2 ** 1.5)`. -/
noncomputable def Moments.skewness (m : Moments) : ℝ :=
  if m.m0 < 3 ∨ m.m2 = 0 then 0 else m.m3 * (m.m0 : ℝ) / m.m2 ^ (1.5 : ℝ)

/-- `Moments.kurtosis`: `0` if `m0 < 4` or `m2 == 0`, else
`(m4 * m0) / (m2 ** 2) - 3.0` (excess kurtosis). -/
noncomputable def Moments.kurtosis (m : Moments) : ℝ :=
  if m.m0 < 4 ∨ m.m2 = 0 then 0 else m.m4 * (m.m0 : ℝ) / m.m2 ^ 2 - 3

/-- The claim's formula for variance, written from the spec's words. -/
noncomputable def specVariance (m : Moments) : ℝ :=
  if 2 ≤ m.m0 then m.m2 / (m.m0 : ℝ) else 0

/-- The claim's formula for skew: `M3·n / M2^(3/2)`, zero when `n < 3`
or `M2 = 0`. -/
noncomputable def specSkewness (m : Moments) : ℝ :=
  if 3 ≤ m.m0 ∧ m.m2 ≠ 0 then m.m3 * (m.m0 : ℝ) / m.m2 ^ ((3 : ℝ) / 2) else 0

/-- The claim's formula for excess kurtosis: `M4·n / M2² − 3`, zero when
`n < 4` or `M2 = 0`. -/
noncomputable def specKurtosis (m : Moments) : ℝ :=
  if 4 ≤ m.m0 ∧ m.m2 ≠ 0 then m.m4 * (m.m0 : ℝ) / m.m2 ^ 2 - 3 else 0

/-- C9: the derived statistics of `Moments` agree with the claim's
formulas and zero-guards for every value of the tuple. -/
theorem moments_derived_statistics (m : Moments) :
    m.variance = specVariance m ∧ m.skewness = specSkewness m ∧
      m.kurtosis = specKurtosis m := by
  refine ⟨?_, ?_, ?_⟩
  · rw [Moments.variance, specVariance]
    rcases lt_or_ge m.m0 2 with h | h
    · rw [if_pos h, if_neg (by omega)]
    · rw [if_neg (by omega), if_pos h]
  · rw [Moments.skewness, specSkewness]
    by_cases h : m.m0 < 3 ∨ m.m2 = 0
    · rw [if_pos h, if_neg ?_]
      rintro ⟨h1, h2⟩
      rcases h with h | h
      · omega
      · exact h2 h
    · rw [if_neg h, if_pos ?_]
      · norm_num
      · push_neg at h
        exact ⟨by omega, h.2⟩
  · rw [Moments.kurtosis, specKurtosis]
    by_cases h : m.m0 < 4 ∨ m.m2 = 0
    · rw [if_pos h, if_neg ?_]
      rintro ⟨h1, h2⟩
      rcases h with h | h
      · omega
      · exact h2 h
    · rw [if_neg h, if_pos ?_]
      push_neg at h
      exact ⟨by omega, h.2⟩

/-! ### Count-Min Sketch (`src/app/core/sketches/count_min.py`, class
`CountMinSketch`) -/

/-- State of `CountMinSketch`: a `depth × width` matrix of counters. -/
structure CountMinSketch where
  width : ℕ
  depth : ℕ
  table : List (List ℤ)
  totalCount : ℤ

/-- `CountMinSketch.__init__`. -/
def CountMinSketch.init (width depth : ℕ) : CountMinSketch :=
  ⟨width, depth, List.replicate depth (List.replicate width 0), 0⟩

/-- `CountMinSketch._get_positions`: seed `r` hashes row `r`'s column. -/
def CountMinSketch.positionsOf (hash : ℕ → α → ℕ) (c : CountMinSketch) (item : α) :
    List ℕ :=
  (List.range c.depth).map fun seed => hash seed item % c.width

/-- `CountMinSketch.add`: `table[row][col] += count` for every row, and
`total_count += count`. -/
def CountMinSketch.add (hash : ℕ → α → ℕ) (c : CountMinSketch) (item : α) (count : ℤ) :
    CountMinSketch :=
  { c with
    table := List.zipWith (fun row col => row.set col (row.getD col 0 + count))
      c.table (c.positionsOf hash item),
    totalCount := c.totalCount + count }

/-- `CountMinSketch.query`: minimum of `table[row][col]` across rows
(Python's `min` over the generator: first value, then fold `min`). -/
def CountMinSketch.query (hash : ℕ → α → ℕ) (c : CountMinSketch) (item : α) : ℤ :=
  match List.zipWith (fun row col => row.getD col 0) c.table (c.positionsOf hash item) with
  | [] => 0
  | v :: rest => rest.foldl min v

/-- Replay a sequence of `add(item, count)` calls. -/
def addAllCMS (hash : ℕ → α → ℕ) (c : CountMinSketch) (adds : List (α × ℤ)) :
    CountMinSketch :=
  adds.foldl (fun acc p => acc.add hash p.1 p.2) c

/-- The exact total added for `x` across a sequence of `add` calls. -/
def trueCount [DecidableEq α] (adds : List (α × ℤ)) (x : α) : ℤ :=
  ((adds.filter fun p => p.1 = x).map Prod.snd).sum

/-- The counter cell that row `r` attributes to `x`. -/
def cellAt (hash : ℕ → α → ℕ) (c : CountMinSketch) (x : α) (r : ℕ) : ℤ :=
  (c.table.getD r []).getD (hash r x % c.width) 0

theorem getD_zipWith (f : α → β → γ) (as : List α) (bs : List β) (i : ℕ)
    (da : α) (db : β) (dg : γ) (ha : i < as.length) (hb : i < bs.length) :
    (List.zipWith f as bs).getD i dg = f (as.getD i da) (bs.getD i db) := by
  rw [List.getD_eq_getElem _ _
      (by rw [List.length_zipWith]; exact lt_min ha hb),
    List.getElem_zipWith, List.getD_eq_getElem _ _ ha, List.getD_eq_getElem _ _ hb]

theorem CountMinSketch.positionsOf_length (hash : ℕ → α → ℕ) (c : CountMinSketch)
    (item : α) : (c.positionsOf hash item).length = c.depth := by
  simp [CountMinSketch.positionsOf]

theorem CountMinSketch.positionsOf_getD (hash : ℕ → α → ℕ) (c : CountMinSketch)
    (item : α) (r : ℕ) (hr : r < c.depth) :
    (c.positionsOf hash item).getD r 0 = hash r item % c.width := by
  rw [CountMinSketch.positionsOf, List.getD_eq_getElem _ _ (by simpa using hr),
    List.getElem_map, List.getElem_range]

/-- The row of the table after one `add`. -/
theorem CountMinSketch.add_table_getD (hash : ℕ → α → ℕ) (c : CountMinSketch) (y : α)
    (cnt : ℤ) (r : ℕ) (hr : r < c.table.length) (hrd : r < c.depth) :
    (c.add hash y cnt).table.getD r [] =
      (c.table.getD r []).set (hash r y % c.width)
        ((c.table.getD r []).getD (hash r y % c.width) 0 + cnt) := by
  show (List.zipWith _ c.table (c.positionsOf hash y)).getD r [] = _
  rw [getD_zipWith _ _ _ _ [] 0 _ hr
      (by rw [CountMinSketch.positionsOf_length]; exact hrd),
    CountMinSketch.positionsOf_getD hash c y r hrd]

/-- One `add(y, cnt)` with `cnt ≥ 0` never decreases `x`'s cell, and
increases it by at least `cnt` when `y = x`. -/
theorem cellAt_add_ge [DecidableEq α] (hash : ℕ → α → ℕ) (c : CountMinSketch) (y x : α)
    (cnt : ℤ) (r w : ℕ) (hw : c.width = w) (h0 : 0 < w)
    (hr : r < c.table.length) (hrd : r < c.depth)
    (hrow : (c.table.getD r []).length = w) (hcnt : 0 ≤ cnt) :
    cellAt hash c x r + (if y = x then cnt else 0) ≤ cellAt hash (c.add hash y cnt) x r := by
  unfold cellAt
  rw [show (c.add hash y cnt).width = c.width from rfl,
    CountMinSketch.add_table_getD hash c y cnt r hr hrd]
  by_cases hcol : hash r y % c.width = hash r x % c.width
  · rw [← hcol, getD_set_self _ _ _ _ (by rw [hrow, ← hw]; exact Nat.mod_lt _ (hw ▸ h0))]
    have hite : (if y = x then cnt else 0) ≤ cnt := by
      split_ifs <;> omega
    omega
  · rw [getD_set_ne _ _ _ hcol]
    have hite : (if y = x then cnt else 0) = 0 := by
      rw [if_neg]
      intro hyx
      exact hcol (by rw [hyx])
    omega

theorem trueCount_cons [DecidableEq α] (y : α) (cnt : ℤ) (rest : List (α × ℤ)) (x : α) :
    trueCount ((y, cnt) :: rest) x = (if y = x then cnt else 0) + trueCount rest x := by
  by_cases hyx : y = x
  · simp [trueCount, List.filter_cons, hyx]
  · simp [trueCount, List.filter_cons, hyx]

/-- Replaying a sequence of nonnegative adds leaves every cell of `x` at
least `x`'s exact total plus the cell's starting value. -/
theorem cellAt_addAll_ge [DecidableEq α] (hash : ℕ → α → ℕ) (adds : List (α × ℤ))
    (c : CountMinSketch) (w d : ℕ) (x : α) (r : ℕ)
    (h0 : 0 < w) (hw : c.width = w) (hd : c.depth = d) (hlen : c.table.length = d)
    (hrows : ∀ i, i < c.table.length → (c.table.getD i []).length = w)
    (hcnt : ∀ p ∈ adds, 0 ≤ p.2) (hr : r < d) :
    cellAt hash c x r + trueCount adds x ≤ cellAt hash (addAllCMS hash c adds) x r := by
  induction adds generalizing c with
  | nil => simp [addAllCMS, trueCount]
  | cons p rest ih =>
    obtain ⟨y, cnt⟩ := p
    have hstep := cellAt_add_ge hash c y x cnt r w hw h0 (by omega) (by omega)
      (hrows r (by omega)) (hcnt (y, cnt) (List.mem_cons_self _ _))
    have hlen' : (c.add hash y cnt).table.length = d := by
      simp [CountMinSketch.add, List.length_zipWith, CountMinSketch.positionsOf]
      omega
    have hrows' : ∀ i, i < (c.add hash y cnt).table.length →
        (((c.add hash y cnt).table.getD i []).length = w) := by
      intro i hi
      rw [hlen'] at hi
      rw [CountMinSketch.add_table_getD hash c y cnt i (by omega) (by omega),
        List.length_set]
      exact hrows i (by omega)
    have htail := ih (c.add hash y cnt) hw hd hlen' hrows'
      (fun q hq => hcnt q (List.mem_cons_of_mem _ hq))
    rw [show addAllCMS hash c ((y, cnt) :: rest) =
        addAllCMS hash (c.add hash y cnt) rest from rfl,
      trueCount_cons]
    omega

theorem addAllCMS_dims (hash : ℕ → α → ℕ) (adds : List (α × ℤ)) (c : CountMinSketch)
    (hlen : c.table.length = c.depth) :
    (addAllCMS hash c adds).width = c.width ∧ (addAllCMS hash c adds).depth = c.depth ∧
      (addAllCMS hash c adds).table.length = c.depth := by
  induction adds generalizing c with
  | nil => exact ⟨rfl, rfl, hlen⟩
  | cons p rest ih =>
    have hlen' : (c.add hash p.1 p.2).table.length = (c.add hash p.1 p.2).depth := by
      simp [CountMinSketch.add, List.length_zipWith, CountMinSketch.positionsOf, hlen]
    exact ih (c.add hash p.1 p.2) hlen'

theorem foldl_min_ge (B v : ℤ) (rest : List ℤ) (hv : B ≤ v)
    (hrest : ∀ u ∈ rest, B ≤ u) : B ≤ rest.foldl min v := by
  induction rest generalizing v with
  | nil => exact hv
  | cons u rest ih =>
    rw [List.foldl_cons]
    exact ih (min v u) (le_min hv (hrest u (List.mem_cons_self _ _)))
      (fun t ht => hrest t (List.mem_cons_of_mem _ ht))

/-- C10: after any sequence of `add(y, c)` calls with `c ≥ 0` on a fresh
sketch, `query(x)` is at least the exact total added for `x` itself. -/
theorem cms_query_no_underestimate [DecidableEq α] (hash : ℕ → α → ℕ) (w d : ℕ)
    (adds : List (α × ℤ)) (x : α) (hw : 0 < w) (hd : 0 < d)
    (hcnt : ∀ p ∈ adds, 0 ≤ p.2) :
    trueCount adds x ≤
      CountMinSketch.query hash (addAllCMS hash (CountMinSketch.init w d) adds) x := by
  have hlen0 : (CountMinSketch.init w d).table.length = d := by
    simp [CountMinSketch.init]
  have hrows0 : ∀ i, i < (CountMinSketch.init w d).table.length →
      (((CountMinSketch.init w d).table.getD i []).length = w) := by
    intro i hi
    simp [CountMinSketch.init] at hi
    have h1 : (List.replicate d (List.replicate w (0:ℤ))).getD i [] =
        List.replicate w 0 := by
      rw [List.getD_eq_getElem _ _ (by simpa using hi), List.getElem_replicate]
    show ((List.replicate d (List.replicate w (0:ℤ))).getD i []).length = w
    rw [h1, List.length_replicate]
  have hcell0 : ∀ r, r < d → cellAt hash (CountMinSketch.init w d) x r = 0 := by
    intro r hr
    unfold cellAt
    have h1 : (CountMinSketch.init w d).table.getD r [] = List.replicate w 0 := by
      show (List.replicate d (List.replicate w (0:ℤ))).getD r [] = _
      rw [List.getD_eq_getElem _ _ (by simpa using hr), List.getElem_replicate]
    rw [h1]
    by_cases h2 : hash r x % (CountMinSketch.init w d).width < w
    · rw [List.getD_eq_getElem _ _ (by simpa using h2), List.getElem_replicate]
    · rw [List.getD_eq_getElem?_getD, List.getElem?_eq_none (by simpa using h2)]
      rfl
  have hbound : ∀ r, r < d →
      trueCount adds x ≤ cellAt hash (addAllCMS hash (CountMinSketch.init w d) adds) x r := by
    intro r hr
    have h := cellAt_addAll_ge hash adds (CountMinSketch.init w d) w d x r hw rfl rfl
      hlen0 hrows0 hcnt hr
    rw [hcell0 r hr] at h
    omega
  obtain ⟨hfw, hfd0, hflen0⟩ := addAllCMS_dims hash adds (CountMinSketch.init w d)
    (by rw [hlen0]; rfl)
  set final := addAllCMS hash (CountMinSketch.init w d) adds with hfinal
  have hfd : final.depth = d := hfd0
  have hflen : final.table.length = d := hflen0
  have hplen : (final.positionsOf hash x).length = d := by
    rw [CountMinSketch.positionsOf_length, hfd]
  have hzlen : (List.zipWith (fun row col => row.getD col 0) final.table
      (final.positionsOf hash x)).length = d := by
    rw [List.length_zipWith, hflen, hplen]
    exact min_self d
  have hall : ∀ v ∈ List.zipWith (fun row col => row.getD col 0) final.table
      (final.positionsOf hash x), trueCount adds x ≤ v := by
    intro v hv
    obtain ⟨i, hi, rfl⟩ := List.mem_iff_getElem.mp hv
    have hid : i < d := by rw [← hzlen]; exact hi
    have hlt : i < final.table.length := by
      omega
    have hplt : i < (final.positionsOf hash x).length := by
      rw [hplen]
      exact hid
    have e2 : (final.positionsOf hash x)[i] = hash i x % final.width := by
      have h3 := CountMinSketch.positionsOf_getD hash final x i (by omega)
      rw [List.getD_eq_getElem _ _ hplt] at h3
      exact h3
    calc trueCount adds x ≤ cellAt hash final x i := hbound i hid
    _ = (List.zipWith (fun row col => row.getD col 0) final.table
        (final.positionsOf hash x))[i] := by
      rw [List.getElem_zipWith]
      show cellAt hash final x i = (final.table[i]).getD ((final.positionsOf hash x)[i]) 0
      rw [e2, cellAt, List.getD_eq_getElem _ _ hlt]
  rcases hz : List.zipWith (fun row col => row.getD col 0) final.table
      (final.positionsOf hash x) with _ | ⟨v, rest⟩
  · rw [hz] at hzlen
    simp at hzlen
    omega
  · have hquery : CountMinSketch.query hash final x = rest.foldl min v := by
      unfold CountMinSketch.query
      rw [hz]
    rw [hquery]
    refine foldl_min_ge _ v rest ?_ ?_
    · exact hall v (by rw [hz]; exact List.mem_cons_self _ _)
    · intro u hu
      exact hall u (by rw [hz]; exact List.mem_cons_of_mem _ hu)

/-- C10 witness: width 4, depth 2, adds `[(1,3), (2,1), (1,2)]`, query
item `1` whose exact total is 5. -/
theorem cms_query_no_underestimate_witness :
    trueCount [((1 : ℕ), (3 : ℤ)), (2, 1), (1, 2)] 1 ≤
      CountMinSketch.query (fun seed item => seed + item)
        (addAllCMS (fun seed item => seed + item) (CountMinSketch.init 4 2)
          [((1 : ℕ), (3 : ℤ)), (2, 1), (1, 2)]) 1 :=
  cms_query_no_underestimate (fun seed item => seed + item) 4 2
    [((1 : ℕ), (3 : ℤ)), (2, 1), (1, 2)] 1 (by decide) (by decide) (by decide)

end Papertrail
